import Mathlib

/-
Verification development for the TSTP Permission Changer engine
(src/main.py). The definitions below are a shallow embedding of the
ownership-audit engine: the owner provider wrappers get_owner and
set_owner, the sqlite-backed audit table, the three QRunnable workers
(ownership check, ownership change, revert), the chunking scheduler in
FileOwnerChanger.check_ownership_info, the counters handler
FileOwnerChanger.update_counters, and the path expansion loop built on
os.walk. The OS-level outcome of each owner query and each chown call
is modelled by oracles carried in the filesystem state, since those
outcomes are environmental inputs to the program.
-/

namespace PermissionChanger

/-- Filesystem paths, as the strings the program passes around. -/
abbrev FPath := String

/-- The environment seen through the OS: the underlying owner lookup
(none models the lookup raising an OS error, for example on an
inaccessible path) and an oracle saying whether a chown attempt on a
given path for a given target user succeeds. Successful set_owner
calls update the lookup in place. -/
structure Fs where
  query : FPath → Option String
  chownOk : FPath → String → Bool

/-- Embeds get_owner (src/main.py lines 44-61): return the owner from
the OS lookup, and on any failure catch the exception and return the
string Unknown. -/
def get_owner (fs : Fs) (p : FPath) : String :=
  match fs.query p with
  | some o => o
  | none => "Unknown"

/-- Embeds set_owner (src/main.py lines 64-84): on success return
(True, empty reason) and the updated filesystem, on failure return
(False, reason) and leave the filesystem untouched. -/
def set_owner (fs : Fs) (p : FPath) (u : String) : (Bool × String) × Fs :=
  if fs.chownOk p u then
    ((true, ""), { fs with query := fun q => if q = p then some u else fs.query q })
  else
    ((false, "oserror"), fs)

/-- One row of the ownership_changes audit table (schema at
src/main.py lines 94-102). -/
structure ChangeRecord where
  id : Nat
  path : FPath
  original_owner : String
  current_owner : String
  operation_time : Nat
deriving DecidableEq

/-- The audit store: the rows of the ownership_changes table, the
autoincrement counter feeding the id column, and the clock stamping
operation_time. -/
structure Db where
  rows : List ChangeRecord
  nextId : Nat
  clock : Nat
deriving DecidableEq

/-- Embeds record_change (src/main.py lines 109-123): INSERT a row
with an auto-assigned id and the current timestamp. -/
def record_change (db : Db) (p : FPath) (orig cur : String) : Db :=
  { db with
    rows := db.rows ++ [⟨db.nextId, p, orig, cur, db.clock⟩]
    nextId := db.nextId + 1 }

/-- Embeds get_all_changes (src/main.py lines 126-139): SELECT every
row of the table. -/
def get_all_changes (db : Db) : List ChangeRecord := db.rows

/-- Embeds the inline DELETE FROM ownership_changes WHERE id = ?
executed by RevertOwnershipWorker.run (src/main.py lines 269-273). -/
def delete_change (db : Db) (i : Nat) : Db :=
  { db with rows := db.rows.filter (fun r => r.id != i) }

/-- The changed / unchanged / errors tally kept by each worker and
shown in the three counter labels. -/
structure Counters where
  changed : Nat
  unchanged : Nat
  errors : Nat
deriving DecidableEq

/-- Total of the three counters. -/
def Counters.total (c : Counters) : Nat := c.changed + c.unchanged + c.errors

/-- The mutable state the engine acts on: the filesystem and the
audit database. -/
structure EngineState where
  fs : Fs
  db : Db

/-- One body iteration of OwnershipCheckWorker.run (src/main.py lines
171-183): query the owner; both branches of the comparison against the
current user increment unchanged, and a query failure cannot reach the
except branch because get_owner catches internally. -/
def checkStep (fs : Fs) (user : String) (c : Counters) (p : FPath) : Counters :=
  let owner := get_owner fs p
  if owner ≠ user then
    { c with unchanged := c.unchanged + 1 }
  else
    { c with unchanged := c.unchanged + 1 }

/-- The counter tally OwnershipCheckWorker.run emits for its chunk of
paths (src/main.py lines 164-190). -/
def checkWorkerCounters (fs : Fs) (user : String) (paths : List FPath) : Counters :=
  paths.foldl (checkStep fs user) ⟨0, 0, 0⟩

/-- An element of the items list handed to OwnershipChangeWorker: a
dict with keys path and original_owner (src/main.py lines 203, 805). -/
structure ChangeItem where
  path : FPath
  original_owner : String

/-- One body iteration of OwnershipChangeWorker.run (src/main.py lines
214-230): attempt set_owner to the current user; on success re-query
the owner, insert an audit row and bump changed; on failure bump
errors and touch nothing else. -/
def changeStep (user : String) (acc : EngineState × Counters) (item : ChangeItem) :
    EngineState × Counters :=
  let res := set_owner acc.1.fs item.path user
  if res.1.1 then
    let fs1 := res.2
    let newOwner := get_owner fs1 item.path
    ({ fs := fs1, db := record_change acc.1.db item.path item.original_owner newOwner },
      { acc.2 with changed := acc.2.changed + 1 })
  else
    ({ acc.1 with fs := res.2 }, { acc.2 with errors := acc.2.errors + 1 })

/-- OwnershipChangeWorker.run over its whole items list (src/main.py
lines 207-237), returning the final engine state and the tally the
worker emits. -/
def changeWorker (user : String) (st : EngineState) (items : List ChangeItem) :
    EngineState × Counters :=
  items.foldl (changeStep user) (st, ⟨0, 0, 0⟩)

/-- One body iteration of RevertOwnershipWorker.run (src/main.py lines
261-281): attempt set_owner back to the recorded original owner; on
success delete the row by id and bump changed; on failure bump errors
and leave the store as it was. -/
def revertStep (acc : EngineState × Counters) (r : ChangeRecord) :
    EngineState × Counters :=
  let res := set_owner acc.1.fs r.path r.original_owner
  if res.1.1 then
    ({ fs := res.2, db := delete_change acc.1.db r.id },
      { acc.2 with changed := acc.2.changed + 1 })
  else
    ({ acc.1 with fs := res.2 }, { acc.2 with errors := acc.2.errors + 1 })

/-- RevertOwnershipWorker.run over the selected records (src/main.py
lines 254-288). -/
def revertWorker (st : EngineState) (records : List ChangeRecord) :
    EngineState × Counters :=
  records.foldl revertStep (st, ⟨0, 0, 0⟩)

/-- num_threads = min(4, QThreadPool maxThreadCount) in
check_ownership_info (src/main.py line 742); the argument is the
available parallelism. -/
def numThreads (maxThreadCount : Nat) : Nat := min 4 maxThreadCount

/-- chunk_size = max(1, len(all_paths) // num_threads) (src/main.py
line 743). -/
def chunkSizeOf (n threads : Nat) : Nat := max 1 (n / threads)

/-- The slicing all_paths[i : i + chunk_size] for i in range(0, len,
chunk_size) (src/main.py line 744). -/
def chunkList : List α → Nat → List (List α)
  | [], _ => []
  | l, 0 => [l]
  | a :: l, s + 1 => (a :: l.take s) :: chunkList (l.drop s) (s + 1)
termination_by l _ => l.length
decreasing_by
  simp only [List.length_drop, List.length_cons]
  omega

/-- The per-chunk tallies emitted by the check workers started in
check_ownership_info (src/main.py lines 742-748), one per chunk. -/
def checkRunTallies (fs : Fs) (user : String) (paths : List FPath) (maxThreadCount : Nat) :
    List Counters :=
  (chunkList paths (chunkSizeOf paths.length (numThreads maxThreadCount))).map
    (checkWorkerCounters fs user)

/-- Embeds FileOwnerChanger.update_counters (src/main.py lines
899-908): each counters_update signal overwrites the three labels with
the emitted values via setText. -/
def update_counters (_displayed : Counters) (emitted : Counters) : Counters := emitted

/-- The counters shown after a check run: the labels start at zero
(src/main.py lines 709-711) and every chunk tally is folded through
update_counters. -/
def checkRunFinalCounters (fs : Fs) (user : String) (paths : List FPath)
    (maxThreadCount : Nat) : Counters :=
  (checkRunTallies fs user paths maxThreadCount).foldl update_counters ⟨0, 0, 0⟩

/-- Elementwise sum of two tallies. -/
def addCounters (a b : Counters) : Counters :=
  ⟨a.changed + b.changed, a.unchanged + b.unchanged, a.errors + b.errors⟩

/-- Modelled from the spec: the aggregation the specification ascribes
to the scheduler, namely that it sums all chunk tallies into the run
counters. The code under src/ aggregates through update_counters
instead; this definition exists to compare the two. -/
def specSumTallies (ts : List Counters) : Counters :=
  ts.foldl addCounters ⟨0, 0, 0⟩

/-- The 1-based index list 1, 2, ..., n traversed by enumerate(paths, 1)
in each worker loop. -/
def upTo : Nat → List Nat
  | 0 => []
  | n + 1 => upTo n ++ [n + 1]

/-- The progress percentage int((idx / total) * 100) computed at
src/main.py lines 186-187 (and identically at 233-234 and 284-285). -/
def progressValue (idx total : Nat) : Nat := idx * 100 / total

/-- The loop indices at which a worker emits progress_update: every
500th item and unconditionally the final item (the guard idx % 500 ==
0 or idx == total at src/main.py line 186). Accumulator form of the
loop, iterating the index downward. -/
def progressIdxsGo (total : Nat) : Nat → List Nat → List Nat
  | 0, acc => acc
  | k + 1, acc =>
      progressIdxsGo total k
        (if (k + 1) % 500 == 0 || (k + 1) == total then (k + 1) :: acc else acc)

/-- The emission indices of one worker processing a chunk of length
total. -/
def progressIdxs (total : Nat) : List Nat := progressIdxsGo total total []

/-- The sequence of progress values one worker emits for a chunk of
length total. -/
def workerProgress (total : Nat) : List Nat :=
  (progressIdxs total).map (fun idx => progressValue idx total)

/-- The progress events of a whole run whose chunks have the given
lengths, with the workers taken in chunk order: each event pairs the
number of items processed so far across the whole run with the value
the emitting worker computed for its own chunk. -/
def runProgressEvents (chunkLens : List Nat) : List (Nat × Nat) :=
  (chunkLens.foldl
    (fun (acc : Nat × List (Nat × Nat)) L =>
      (acc.1 + L,
        acc.2 ++ (progressIdxs L).map (fun i => (acc.1 + i, progressValue i L))))
    (0, [])).2

/-- The progress events of a check run as chunked by
check_ownership_info. -/
def checkRunProgressEvents (paths : List FPath) (maxThreadCount : Nat) :
    List (Nat × Nat) :=
  runProgressEvents
    ((chunkList paths (chunkSizeOf paths.length (numThreads maxThreadCount))).map
      List.length)

/-- Modelled from the spec: the value the specification says is shown,
a 0-100 percentage of the items processed so far across all workers
combined, out of the total item count of the run. -/
def specCombinedPercent (processed totalRun : Nat) : Nat :=
  processed * 100 / totalRun

/-- A node of the filesystem tree at traversal time, carrying the
absolute path string the program would see for it. Directories carry
their entries. -/
inductive Entry where
  | file : FPath → Entry
  | dir : FPath → List Entry → Entry

/-- The path of a node. -/
def Entry.path : Entry → FPath
  | .file p => p
  | .dir p _ => p

/-- The paths appended for the dirs of one os.walk triple (the loop
for d in dirs at src/main.py lines 723-725, with os.path.join already
folded into the stored absolute paths). -/
def dirChildPaths (cs : List Entry) : List FPath :=
  cs.filterMap fun c =>
    match c with
    | .dir p _ => some p
    | .file _ => none

/-- The paths appended for the files of one os.walk triple (the loop
for f in files at src/main.py lines 726-728). -/
def fileChildPaths (cs : List Entry) : List FPath :=
  cs.filterMap fun c =>
    match c with
    | .file p => some p
    | .dir _ _ => none

/-- os.walk over a forest: for each directory visited, first its
subdirectory paths, then its file paths, then the recursive walk of
its subdirectories in order (the top-down traversal consumed at
src/main.py lines 722-728; the walked directory itself is never
appended). -/
def walkList : List Entry → List FPath
  | [] => []
  | .file _ :: rest => walkList rest
  | .dir _ cs :: rest => (dirChildPaths cs ++ fileChildPaths cs ++ walkList cs) ++ walkList rest

/-- The entries os.walk appends for one directory whose entry list is
cs. -/
def walkDir (cs : List Entry) : List FPath :=
  dirChildPaths cs ++ fileChildPaths cs ++ walkList cs

/-- Path lookup in the world, resolving a path string to the node it
names, as os.path.isfile / os.path.isdir do at src/main.py lines
719-721. -/
def findNode : List Entry → FPath → Option Entry
  | [], _ => none
  | e :: rest, p =>
    if e.path = p then some e
    else
      match e with
      | .file _ => findNode rest p
      | .dir _ cs =>
        match findNode cs p with
        | some r => some r
        | none => findNode rest p

/-- The paths one selected root contributes to all_paths (src/main.py
lines 718-728): a file root contributes itself, a directory root
contributes its os.walk entries, anything else contributes nothing. -/
def collectOne (world : List Entry) (root : FPath) : List FPath :=
  match findNode world root with
  | some (.file _) => [root]
  | some (.dir _ cs) => walkDir cs
  | none => []

/-- The all_paths list built by the collection loop of
check_ownership_info over all selected roots (src/main.py lines
717-728). -/
def collect (world : List Entry) (roots : List FPath) : List FPath :=
  (roots.map (collectOne world)).flatten

/-- All node paths of a forest, root of each subtree first. -/
def subtreePathsList : List Entry → List FPath
  | [] => []
  | .file p :: rest => p :: subtreePathsList rest
  | .dir p cs :: rest => p :: (subtreePathsList cs ++ subtreePathsList rest)

/-- All node paths of one subtree. -/
def subtreePaths (e : Entry) : List FPath :=
  match e with
  | .file p => [p]
  | .dir p cs => p :: subtreePathsList cs

/-- Disjointness of two produced path lists, stated with explicit
binders so it is decidable on concrete inputs. -/
def PathsDisjoint (l1 l2 : List FPath) : Prop := ∀ x ∈ l1, x ∉ l2

/-- A filesystem oracle on which every path is owned by bob and every
chown succeeds. -/
def fsBob : Fs := ⟨fun _ => some "bob", fun _ _ => true⟩

/-- A filesystem oracle on which every owner query fails at the OS
level. -/
def fsNone : Fs := ⟨fun _ => none, fun _ _ => true⟩

/-- A filesystem oracle on which every chown attempt fails. -/
def fsNoChown : Fs := ⟨fun _ => some "bob", fun _ _ => false⟩

/-- An engine state whose chown attempts all fail. -/
def stNoChown : EngineState := ⟨fsNoChown, ⟨[], 1, 0⟩⟩

/-- A concrete audit record. -/
def rec1 : ChangeRecord := ⟨1, "p1", "bob", "alice", 0⟩

/-- An engine state holding exactly rec1, with chowns succeeding. -/
def stWithRec : EngineState := ⟨fsBob, ⟨[rec1], 2, 3⟩⟩

/-- An engine state in which rec1 has already been reverted and
deleted, and the path has since been handed to alice again. -/
def stStale : EngineState := ⟨⟨fun _ => some "alice", fun _ _ => true⟩, ⟨[], 2, 3⟩⟩

/-- A world in which one selected root is nested inside another. -/
def nestedWorld : List Entry := [.dir "/a" [.dir "/a/b" [.file "/a/b/f"]]]

/-- A world with one directory root holding one file. -/
def worldA : List Entry := [.dir "/a" [.file "/a/f"]]

/-- A world with a directory and a separate top-level file. -/
def worldB : List Entry := [.dir "/a" [.file "/a/f"], .file "/b"]

/-- Nine concrete paths, enough to make the slicing remainder visible. -/
def ninePaths : List FPath := ["a", "b", "c", "d", "e", "f", "g", "h", "i"]

instance (l1 l2 : List FPath) : Decidable (PathsDisjoint l1 l2) :=
  List.decidableBAll (fun x => x ∉ l2) l1

theorem checkStep_eq (fs : Fs) (user : String) (c : Counters) (p : FPath) :
    checkStep fs user c p = { c with unchanged := c.unchanged + 1 } := by
  simp [checkStep]

theorem checkWorkerCounters_foldl (fs : Fs) (user : String) :
    ∀ (paths : List FPath) (c : Counters),
      paths.foldl (checkStep fs user) c = { c with unchanged := c.unchanged + paths.length } := by
  intro paths
  induction paths with
  | nil => intro c; rfl
  | cons p rest ih =>
    intro c
    rw [List.foldl_cons, checkStep_eq, ih]
    simp [Nat.add_comm, Nat.add_assoc, Nat.add_left_comm]

theorem checkWorkerCounters_eq (fs : Fs) (user : String) (paths : List FPath) :
    checkWorkerCounters fs user paths = ⟨0, paths.length, 0⟩ := by
  unfold checkWorkerCounters
  rw [checkWorkerCounters_foldl]
  simp

theorem changeStep_total (user : String) (acc : EngineState × Counters) (item : ChangeItem) :
    ((changeStep user acc item).2).total = acc.2.total + 1 := by
  cases h : (set_owner acc.1.fs item.path user).1.1 <;>
    simp [changeStep, h, Counters.total] <;> omega

theorem revertStep_total (acc : EngineState × Counters) (r : ChangeRecord) :
    ((revertStep acc r).2).total = acc.2.total + 1 := by
  cases h : (set_owner acc.1.fs r.path r.original_owner).1.1 <;>
    simp [revertStep, h, Counters.total] <;> omega

theorem changeWorker_total_aux (user : String) :
    ∀ (items : List ChangeItem) (acc : EngineState × Counters),
      ((items.foldl (changeStep user) acc).2).total = acc.2.total + items.length := by
  intro items
  induction items with
  | nil => intro acc; simp
  | cons it rest ih =>
    intro acc
    rw [List.foldl_cons, ih, changeStep_total]
    simp [Nat.add_comm, Nat.add_assoc, Nat.add_left_comm]

theorem revertWorker_total_aux :
    ∀ (records : List ChangeRecord) (acc : EngineState × Counters),
      ((records.foldl revertStep acc).2).total = acc.2.total + records.length := by
  intro records
  induction records with
  | nil => intro acc; simp
  | cons r rest ih =>
    intro acc
    rw [List.foldl_cons, ih, revertStep_total]
    simp [Nat.add_comm, Nat.add_assoc, Nat.add_left_comm]

theorem foldl_overwrite (l : List Counters) (a : Counters) :
    l.foldl update_counters a = l.getLastD a := by
  induction l generalizing a with
  | nil => rfl
  | cons x xs ih =>
    show xs.foldl update_counters x = (x :: xs).getLastD a
    rw [List.getLastD_cons]
    exact ih x

theorem getLastD_map {α β : Type} (f : α → β) :
    ∀ (l : List α) (a : α), (l.map f).getLastD (f a) = f (l.getLastD a) := by
  intro l
  induction l with
  | nil => intro a; rfl
  | cons x xs ih =>
    intro a
    rw [List.map_cons, List.getLastD_cons, List.getLastD_cons, ih]

theorem getLastD_mem {α : Type} : ∀ (l : List α) (d : α), l ≠ [] → l.getLastD d ∈ l := by
  intro l
  induction l with
  | nil => intro d h; exact absurd rfl h
  | cons x xs ih =>
    intro d _
    rw [List.getLastD_cons]
    cases xs with
    | nil => simp
    | cons y ys => exact List.mem_cons_of_mem x (ih x (by simp))

theorem checkRunFinalCounters_eq (fs : Fs) (user : String) (paths : List FPath) (T : Nat) :
    checkRunFinalCounters fs user paths T =
      checkWorkerCounters fs user
        ((chunkList paths (chunkSizeOf paths.length (numThreads T))).getLastD []) := by
  unfold checkRunFinalCounters checkRunTallies
  rw [foldl_overwrite]
  have h0 : (⟨0, 0, 0⟩ : Counters) = checkWorkerCounters fs user [] := rfl
  rw [h0, getLastD_map]

theorem one_le_chunkSizeOf (n threads : Nat) : 1 ≤ chunkSizeOf n threads :=
  le_max_left 1 (n / threads)

theorem chunkList_flatten {α : Type} : ∀ (l : List α) (s : Nat), (chunkList l s).flatten = l := by
  intro l s
  induction l, s using chunkList.induct with
  | case1 s => simp [chunkList]
  | case2 l h => simp [chunkList]
  | case3 a l s ih =>
    rw [chunkList]
    simp only [List.flatten_cons, ih]
    simp [List.take_append_drop]

theorem chunkList_chunk_bounds {α : Type} :
    ∀ (l : List α) (s : Nat), 1 ≤ s →
      ∀ c ∈ chunkList l s, c ≠ [] ∧ c.length ≤ s := by
  intro l s
  induction l, s using chunkList.induct with
  | case1 s => intro _ c hc; simp [chunkList] at hc
  | case2 l h => intro h1; omega
  | case3 a l s ih =>
    intro _ c hc
    rw [chunkList] at hc
    rcases List.mem_cons.mp hc with h | h
    · subst h
      refine ⟨by simp, ?_⟩
      simp only [List.length_cons, List.length_take]
      omega
    · exact ih (by omega) c h

theorem chunkList_length_eq {α : Type} :
    ∀ (l : List α) (s : Nat), 1 ≤ s → (chunkList l s).length = (l.length + s - 1) / s := by
  intro l s
  induction l, s using chunkList.induct with
  | case1 s =>
    intro hs
    have h0 : (s - 1) / s = 0 := Nat.div_eq_of_lt (by omega)
    simp [chunkList, h0]
  | case2 l h => intro h1; omega
  | case3 a l s ih =>
    intro _
    rw [chunkList]
    simp only [List.length_cons, ih (by omega), List.length_drop]
    by_cases hls : l.length ≤ s
    · have h1 : l.length - s = 0 := by omega
      have h2 : (0 + (s + 1) - 1) / (s + 1) = 0 := Nat.div_eq_of_lt (by omega)
      have h3 : (l.length + 1 + (s + 1) - 1) / (s + 1) = 1 :=
        Nat.div_eq_of_lt_le (by omega) (by omega)
      rw [h1, h2, h3]
    · have h1 : l.length - s + (s + 1) - 1 = l.length := by omega
      have h2 : l.length + 1 + (s + 1) - 1 = l.length + (s + 1) := by omega
      rw [h1, h2, Nat.add_div_right _ (Nat.succ_pos s)]

theorem mem_upTo {x n : Nat} : x ∈ upTo n ↔ 1 ≤ x ∧ x ≤ n := by
  induction n with
  | zero => simp [upTo]; omega
  | succ k ih => simp [upTo, ih]; omega

theorem upTo_pairwise_lt (n : Nat) : (upTo n).Pairwise (· < ·) := by
  induction n with
  | zero => simp [upTo]
  | succ k ih =>
    rw [upTo, List.pairwise_append]
    refine ⟨ih, by simp, ?_⟩
    intro a ha b hb
    simp at hb
    subst hb
    have := mem_upTo.mp ha
    omega

theorem progressIdxsGo_eq (total : Nat) :
    ∀ (n : Nat) (acc : List Nat),
      progressIdxsGo total n acc =
        (upTo n).filter (fun i => i % 500 == 0 || i == total) ++ acc := by
  intro n
  induction n with
  | zero => intro acc; simp [progressIdxsGo, upTo]
  | succ k ih =>
    intro acc
    rw [progressIdxsGo, ih, upTo, List.filter_append]
    cases h : ((k + 1) % 500 == 0 || (k + 1) == total) with
    | true => simp [List.filter, h]
    | false => simp [List.filter, h]

theorem progressIdxs_eq (total : Nat) :
    progressIdxs total = (upTo total).filter (fun i => i % 500 == 0 || i == total) := by
  rw [progressIdxs, progressIdxsGo_eq, List.append_nil]

theorem mem_progressIdxs {i total : Nat} :
    i ∈ progressIdxs total ↔ (1 ≤ i ∧ i ≤ total ∧ (i % 500 = 0 ∨ i = total)) := by
  rw [progressIdxs_eq, List.mem_filter, mem_upTo]
  simp only [Bool.or_eq_true, beq_iff_eq]
  tauto

theorem progressIdxs_pairwise (total : Nat) : (progressIdxs total).Pairwise (· < ·) := by
  rw [progressIdxs_eq]
  exact (upTo_pairwise_lt total).sublist (List.filter_sublist _)

theorem workerProgress_pairwise (total : Nat) : (workerProgress total).Pairwise (· ≤ ·) := by
  rw [workerProgress]
  rw [List.pairwise_map]
  apply (progressIdxs_pairwise total).imp
  intro a b hab
  exact Nat.div_le_div_right (Nat.mul_le_mul_right 100 (Nat.le_of_lt hab))

theorem progressIdxs_concat (k : Nat) :
    progressIdxs (k + 1) =
      ((upTo k).filter (fun i => i % 500 == 0 || i == k + 1)) ++ [k + 1] := by
  rw [progressIdxs_eq, upTo, List.filter_append]
  have hp : ((k + 1) % 500 == 0 || (k + 1) == k + 1) = true := by simp
  simp [List.filter, hp]

theorem workerProgress_last (total : Nat) (h : 1 ≤ total) :
    (workerProgress total).getLastD 0 = 100 := by
  cases total with
  | zero => omega
  | succ k =>
  rw [workerProgress, progressIdxs_concat, List.map_append]
  simp only [List.map_cons, List.map_nil]
  rw [List.getLastD_eq_getLast?]
  rw [List.getLast?_append_cons]
  simp [progressValue, Nat.mul_div_cancel_left 100 (Nat.succ_pos k)]

theorem perm_rotate {α : Type} (A C X : List α) : (A ++ (C ++ X)).Perm (C ++ (A ++ X)) := by
  have h1 : A ++ (C ++ X) = (A ++ C) ++ X := (List.append_assoc A C X).symm
  have h2 : ((A ++ C) ++ X).Perm ((C ++ A) ++ X) :=
    (@List.perm_append_comm α A C).append_right X
  have h3 : (C ++ A) ++ X = C ++ (A ++ X) := List.append_assoc C A X
  rw [h1, ← h3]
  exact h2

theorem walkDir_perm : ∀ cs : List Entry, (walkDir cs).Perm (subtreePathsList cs) := by
  intro cs
  induction cs using walkList.induct with
  | case1 => simp [walkDir, walkList, dirChildPaths, fileChildPaths, subtreePathsList]
  | case2 p rest ih =>
    have hd : walkDir (.file p :: rest) =
        dirChildPaths rest ++ (p :: (fileChildPaths rest ++ walkList rest)) := by
      simp [walkDir, dirChildPaths, fileChildPaths, walkList]
    have hs : subtreePathsList (.file p :: rest) = p :: subtreePathsList rest := by
      simp [subtreePathsList]
    rw [hd, hs]
    have h1 : (dirChildPaths rest ++ (p :: (fileChildPaths rest ++ walkList rest))).Perm
        (p :: (dirChildPaths rest ++ (fileChildPaths rest ++ walkList rest))) :=
      List.perm_middle
    have h2 : walkDir rest =
        dirChildPaths rest ++ (fileChildPaths rest ++ walkList rest) := by
      simp [walkDir, List.append_assoc]
    exact h1.trans ((h2 ▸ ih).cons p)
  | case3 p cs rest ih1 ih2 =>
    have hd : walkDir (.dir p cs :: rest) =
        p :: (dirChildPaths rest ++ (fileChildPaths rest ++ (walkDir cs ++ walkList rest))) := by
      simp [walkDir, dirChildPaths, fileChildPaths, walkList, List.append_assoc]
    have hs : subtreePathsList (.dir p cs :: rest) =
        p :: (subtreePathsList cs ++ subtreePathsList rest) := by
      simp [subtreePathsList]
    rw [hd, hs]
    apply List.Perm.cons
    have h1 : (fileChildPaths rest ++ (walkDir cs ++ walkList rest)).Perm
        (walkDir cs ++ (fileChildPaths rest ++ walkList rest)) :=
      perm_rotate (fileChildPaths rest) (walkDir cs) (walkList rest)
    have h2 : (dirChildPaths rest ++ (walkDir cs ++ (fileChildPaths rest ++ walkList rest))).Perm
        (walkDir cs ++ (dirChildPaths rest ++ (fileChildPaths rest ++ walkList rest))) :=
      perm_rotate (dirChildPaths rest) (walkDir cs) (fileChildPaths rest ++ walkList rest)
    have h3 : walkDir rest =
        dirChildPaths rest ++ (fileChildPaths rest ++ walkList rest) := by
      simp [walkDir, List.append_assoc]
    exact ((h1.append_left (dirChildPaths rest)).trans h2).trans
      (List.Perm.append ih1 (h3 ▸ ih2))

theorem findNode_path :
    ∀ (l : List Entry) (p : FPath) (e : Entry), findNode l p = some e → e.path = p := by
  intro l p
  induction l, p using findNode.induct with
  | case1 p => intro e he; rw [findNode.eq_1] at he; exact Option.noConfusion he
  | case2 e0 rest =>
    intro e he
    cases e0 with
    | file q =>
      rw [findNode.eq_2, if_pos rfl] at he
      cases he
      rfl
    | dir q cs =>
      rw [findNode.eq_3, if_pos rfl] at he
      cases he
      rfl
  | case3 rest p q hp ih =>
    intro e he
    rw [findNode.eq_2, if_neg hp] at he
    exact ih e he
  | case4 rest p q cs r hr hp ih =>
    intro e he
    rw [findNode.eq_3, if_neg hp] at he
    simp only [hr] at he
    cases he
    exact ih r hr
  | case5 rest p q cs hr hp ih1 ih2 =>
    intro e he
    rw [findNode.eq_3, if_neg hp] at he
    simp only [hr] at he
    exact ih2 e he

theorem findNode_subtree_sublist :
    ∀ (l : List Entry) (p : FPath) (e : Entry), findNode l p = some e →
      List.Sublist (subtreePaths e) (subtreePathsList l) := by
  intro l p
  induction l, p using findNode.induct with
  | case1 p => intro e he; rw [findNode.eq_1] at he; exact Option.noConfusion he
  | case2 e0 rest =>
    intro e he
    cases e0 with
    | file q =>
      rw [findNode.eq_2, if_pos rfl] at he
      cases he
      have hs : subtreePathsList (Entry.file q :: rest) = q :: subtreePathsList rest := by
        simp [subtreePathsList]
      rw [hs]
      exact List.cons_sublist_cons.mpr (List.nil_sublist _)
    | dir q cs =>
      rw [findNode.eq_3, if_pos rfl] at he
      cases he
      have hs : subtreePathsList (Entry.dir q cs :: rest) =
          q :: (subtreePathsList cs ++ subtreePathsList rest) := by
        simp [subtreePathsList]
      rw [hs]
      exact List.cons_sublist_cons.mpr (List.sublist_append_left _ _)
  | case3 rest p q hp ih =>
    intro e he
    rw [findNode.eq_2, if_neg hp] at he
    have hs : subtreePathsList (Entry.file q :: rest) = q :: subtreePathsList rest := by
      simp [subtreePathsList]
    rw [hs]
    exact (ih e he).cons q
  | case4 rest p q cs r hr hp ih =>
    intro e he
    rw [findNode.eq_3, if_neg hp] at he
    simp only [hr] at he
    cases he
    have hs : subtreePathsList (Entry.dir q cs :: rest) =
        q :: (subtreePathsList cs ++ subtreePathsList rest) := by
      simp [subtreePathsList]
    rw [hs]
    exact ((ih r hr).trans (List.sublist_append_left _ _)).cons q
  | case5 rest p q cs hr hp ih1 ih2 =>
    intro e he
    rw [findNode.eq_3, if_neg hp] at he
    simp only [hr] at he
    have hs : subtreePathsList (Entry.dir q cs :: rest) =
        q :: (subtreePathsList cs ++ subtreePathsList rest) := by
      simp [subtreePathsList]
    rw [hs]
    exact ((ih2 e he).trans (List.sublist_append_right _ _)).cons q

theorem collectOne_nodup (world : List Entry) (root : FPath)
    (hw : (subtreePathsList world).Nodup) : (collectOne world root).Nodup := by
  cases hf : findNode world root with
  | none => simp [collectOne, hf]
  | some e =>
    cases e with
    | file q => simp [collectOne, hf]
    | dir q cs =>
      have hgoal : collectOne world root = walkDir cs := by simp [collectOne, hf]
      rw [hgoal]
      have hsub := findNode_subtree_sublist world root _ hf
      have hcons : (q :: subtreePathsList cs).Nodup := by
        have hq : subtreePaths (Entry.dir q cs) = q :: subtreePathsList cs := rfl
        rw [hq] at hsub
        exact hsub.nodup hw
      exact ((walkDir_perm cs).nodup_iff).mpr hcons.of_cons

theorem delete_change_absent (db : Db) (i : Nat) (h : ¬ i ∈ db.rows.map ChangeRecord.id) :
    delete_change db i = db := by
  unfold delete_change
  have hf : db.rows.filter (fun x => x.id != i) = db.rows := by
    apply List.filter_eq_self.mpr
    intro a ha
    have hne : a.id ≠ i := fun he => h (he ▸ List.mem_map_of_mem ChangeRecord.id ha)
    exact bne_iff_ne.mpr hne
  rw [hf]

theorem delete_change_idem (db : Db) (i : Nat) :
    delete_change (delete_change db i) i = delete_change db i := by
  apply delete_change_absent
  intro hmem
  rcases List.mem_map.mp hmem with ⟨a, ha, hai⟩
  have hfa := List.of_mem_filter ha
  rw [hai] at hfa
  simp at hfa

theorem revertStep_success (st : EngineState) (c : Counters) (r : ChangeRecord)
    (h : st.fs.chownOk r.path r.original_owner = true) :
    revertStep (st, c) r =
      ({ fs := { st.fs with
            query := fun q => if q = r.path then some r.original_owner else st.fs.query q },
          db := delete_change st.db r.id },
        { c with changed := c.changed + 1 }) := by
  simp [revertStep, set_owner, h]

theorem revertStep_failure (st : EngineState) (c : Counters) (r : ChangeRecord)
    (h : st.fs.chownOk r.path r.original_owner = false) :
    revertStep (st, c) r = (st, { c with errors := c.errors + 1 }) := by
  simp [revertStep, set_owner, h]

theorem twoPath_chunks :
    chunkList (["p1", "p2"] : List FPath)
      (chunkSizeOf (["p1", "p2"] : List FPath).length (numThreads 4)) = [["p1"], ["p2"]] := by
  simp [chunkList, chunkSizeOf, numThreads]

theorem twoPath_final :
    checkRunFinalCounters fsBob "alice" ["p1", "p2"] 4 = ⟨0, 1, 0⟩ := by
  rw [checkRunFinalCounters_eq, checkWorkerCounters_eq, twoPath_chunks]
  rfl

theorem twoPath_tallies :
    checkRunTallies fsBob "alice" ["p1", "p2"] 4 = [⟨0, 1, 0⟩, ⟨0, 1, 0⟩] := by
  unfold checkRunTallies
  rw [twoPath_chunks]
  simp [checkWorkerCounters_eq]

/-- Claim C1, counterexample: a check run over two paths is split into
two one-path chunks, and because update_counters overwrites the labels
with each emitted tally, the final counters sum to 1, not to the 2
items the run processed. -/
theorem c1_counterexample :
    (checkRunFinalCounters fsBob "alice" ["p1", "p2"] 4).total ≠
      (["p1", "p2"] : List FPath).length := by
  rw [twoPath_final]
  decide

/-- Claim C1 as amended: the tally each individual worker emits always
satisfies changed + unchanged + errors = number of items in its chunk,
so single-worker runs (change runs, revert runs, and one-chunk check
runs) satisfy the identity for the whole run; but the final counters
of a chunked check run equal the tally of the last chunk, so their sum
is the length of the last chunk rather than the run total. -/
theorem c1_counters_sum :
    ∀ (fs : Fs) (user : String) (paths : List FPath) (st : EngineState)
      (items : List ChangeItem) (records : List ChangeRecord) (T : Nat),
      (checkWorkerCounters fs user paths).total = paths.length
      ∧ ((changeWorker user st items).2).total = items.length
      ∧ ((revertWorker st records).2).total = records.length
      ∧ (checkRunFinalCounters fs user paths T).total =
          ((chunkList paths (chunkSizeOf paths.length (numThreads T))).getLastD []).length := by
  intro fs user paths st items records T
  refine ⟨?_, ?_, ?_, ?_⟩
  · rw [checkWorkerCounters_eq]
    simp [Counters.total]
  · unfold changeWorker
    rw [changeWorker_total_aux]
    simp [Counters.total]
  · unfold revertWorker
    rw [revertWorker_total_aux]
    simp [Counters.total]
  · rw [checkRunFinalCounters_eq, checkWorkerCounters_eq]
    simp [Counters.total]

/-- Claim C2, counterexample: on a two-path check run split into two
chunks, the final counters differ from the elementwise sum of the
emitted chunk tallies, because update_counters overwrites instead of
summing. -/
theorem c2_counterexample :
    checkRunFinalCounters fsBob "alice" ["p1", "p2"] 4 ≠
      specSumTallies (checkRunTallies fsBob "alice" ["p1", "p2"] 4) := by
  rw [twoPath_final, twoPath_tallies]
  decide

/-- Claim C2 as amended: each worker emits exactly one tally per chunk,
but the handler overwrites the displayed counters with every emission,
so the final counters of a run equal the tally of the last chunk (one
single chunk tally, an element of the emitted list whenever any chunk
exists); they agree with the specified elementwise sum only when there
is at most one chunk. -/
theorem c2_aggregation :
    ∀ (fs : Fs) (user : String) (paths : List FPath) (T : Nat),
      checkRunFinalCounters fs user paths T =
        (checkRunTallies fs user paths T).getLastD ⟨0, 0, 0⟩
      ∧ (checkRunTallies fs user paths T ≠ [] →
          checkRunFinalCounters fs user paths T ∈ checkRunTallies fs user paths T)
      ∧ ((checkRunTallies fs user paths T).length ≤ 1 →
          checkRunFinalCounters fs user paths T =
            specSumTallies (checkRunTallies fs user paths T)) := by
  intro fs user paths T
  have h1 : checkRunFinalCounters fs user paths T =
      (checkRunTallies fs user paths T).getLastD ⟨0, 0, 0⟩ := by
    unfold checkRunFinalCounters
    exact foldl_overwrite _ _
  refine ⟨h1, ?_, ?_⟩
  · intro hne
    rw [h1]
    exact getLastD_mem _ _ hne
  · intro hlen
    cases htal : checkRunTallies fs user paths T with
    | nil => rw [h1, htal]; rfl
    | cons t ts =>
      rw [htal] at hlen
      have hts : ts = [] := by
        rw [List.length_cons] at hlen
        exact List.eq_nil_of_length_eq_zero (by omega)
      subst hts
      rw [h1, htal]
      cases t
      simp [specSumTallies, addCounters, List.getLastD_cons]

/-- Witness for the amended Claim C2 on a one-chunk run. -/
theorem c2_aggregation_witness :
    checkRunTallies fsBob "alice" ["p1", "p2"] 4 ≠ []
    ∧ checkRunFinalCounters fsBob "alice" ["p1", "p2"] 4 ∈
        checkRunTallies fsBob "alice" ["p1", "p2"] 4
    ∧ (checkRunTallies fsBob "alice" ["p1"] 4).length ≤ 1
    ∧ checkRunFinalCounters fsBob "alice" ["p1"] 4 =
        specSumTallies (checkRunTallies fsBob "alice" ["p1"] 4) := by
  have hne : checkRunTallies fsBob "alice" ["p1", "p2"] 4 ≠ [] := by
    rw [twoPath_tallies]; decide
  have hone : checkRunTallies fsBob "alice" ["p1"] 4 = [⟨0, 1, 0⟩] := by
    unfold checkRunTallies
    have hch : chunkList (["p1"] : List FPath)
        (chunkSizeOf (["p1"] : List FPath).length (numThreads 4)) = [["p1"]] := by
      simp [chunkList, chunkSizeOf, numThreads]
    rw [hch]
    simp [checkWorkerCounters_eq]
  refine ⟨hne, (c2_aggregation fsBob "alice" ["p1", "p2"] 4).2.1 hne,
    by rw [hone]; decide, (c2_aggregation fsBob "alice" ["p1"] 4).2.2 (by rw [hone]; decide)⟩

/-- Claim C3, counterexample: with a root nested inside another
selected root, the collection loop lists the shared file twice; no
deduplication happens. -/
theorem c3_counterexample : ¬ (collect nestedWorld ["/a", "/a/b"]).Nodup := by
  have h : collect nestedWorld ["/a", "/a/b"] = ["/a/b", "/a/b/f", "/a/b/f"] := by
    simp [collect, collectOne, nestedWorld, findNode.eq_1, findNode.eq_2, findNode.eq_3,
      walkDir, walkList, dirChildPaths, fileChildPaths, Entry.path]
  rw [h]
  decide

/-- Claim C3 as amended: over a well-formed world (all node paths
distinct), the expansion of a single root has no duplicates, and a
root set whose expansions are pairwise disjoint collects a
duplicate-free sequence; overlapping or nested roots can produce
duplicates. -/
theorem c3_collect_nodup :
    ∀ (world : List Entry) (roots : List FPath),
      (subtreePathsList world).Nodup →
      (roots.map (collectOne world)).Pairwise PathsDisjoint →
      (collect world roots).Nodup := by
  intro world roots hw hdisj
  unfold collect
  rw [List.nodup_flatten]
  constructor
  · intro l hl
    rcases List.mem_map.mp hl with ⟨r, _, rfl⟩
    exact collectOne_nodup world r hw
  · exact hdisj.imp (fun h a ha => h a ha)

/-- Witness for the amended Claim C3 on two disjoint roots. -/
theorem c3_collect_nodup_witness : (collect worldB ["/a", "/b"]).Nodup := by
  apply c3_collect_nodup
  · have h : subtreePathsList worldB = ["/a", "/a/f", "/b"] := by
      simp [subtreePathsList, worldB]
    rw [h]
    decide
  · have h1 : collectOne worldB "/a" = ["/a/f"] := by
      simp [collectOne, worldB, findNode.eq_3, Entry.path, walkDir, walkList,
        dirChildPaths, fileChildPaths]
    have h2 : collectOne worldB "/b" = ["/b"] := by
      simp [collectOne, worldB, findNode.eq_1, findNode.eq_2, findNode.eq_3, Entry.path]
    simp only [List.map_cons, List.map_nil, h1, h2]
    decide

/-- Claim C4, counterexample: for a directory root, the walk loop only
appends joined child paths, so the root directory itself never appears
in the produced sequence. -/
theorem c4_counterexample :
    findNode worldA "/a" = some (.dir "/a" [.file "/a/f"])
    ∧ ¬ "/a" ∈ collect worldA ["/a"] := by
  constructor
  · simp [worldA, findNode.eq_3, Entry.path]
  · have h : collect worldA ["/a"] = ["/a/f"] := by
      simp [collect, collectOne, worldA, findNode.eq_3, Entry.path, walkDir, walkList,
        dirChildPaths, fileChildPaths]
    rw [h]
    decide

/-- Claim C4 as amended: for a directory root over a well-formed world
the produced sequence contains every strictly contained directory and
file, recursively, but not the root directory itself. -/
theorem c4_collect_dir :
    ∀ (world : List Entry) (root q : FPath) (cs : List Entry),
      findNode world root = some (.dir q cs) →
      (subtreePathsList world).Nodup →
      (∀ x ∈ subtreePathsList cs, x ∈ collectOne world root)
      ∧ ¬ root ∈ collectOne world root := by
  intro world root q cs hf hw
  have hco : collectOne world root = walkDir cs := by simp [collectOne, hf]
  have hsub := findNode_subtree_sublist world root _ hf
  have hcons : (q :: subtreePathsList cs).Nodup := by
    have hq2 : subtreePaths (Entry.dir q cs) = q :: subtreePathsList cs := rfl
    rw [hq2] at hsub
    exact hsub.nodup hw
  have hq : q = root := findNode_path world root _ hf
  constructor
  · intro x hx
    rw [hco]
    exact ((walkDir_perm cs).mem_iff).mpr hx
  · rw [hco]
    intro hmem
    have hx : root ∈ subtreePathsList cs := ((walkDir_perm cs).mem_iff).mp hmem
    rw [hq] at hcons
    exact (List.nodup_cons.mp hcons).1 hx

/-- Witness for the amended Claim C4: the contained file is collected,
the selected directory itself is not. -/
theorem c4_collect_dir_witness :
    "/a/f" ∈ collectOne worldA "/a" ∧ ¬ "/a" ∈ collectOne worldA "/a" := by
  have hf : findNode worldA "/a" = some (.dir "/a" [.file "/a/f"]) := by
    simp [worldA, findNode.eq_3, Entry.path]
  have hw : (subtreePathsList worldA).Nodup := by
    have h : subtreePathsList worldA = ["/a", "/a/f"] := by simp [subtreePathsList, worldA]
    rw [h]
    decide
  have h := c4_collect_dir worldA "/a" "/a" [Entry.file "/a/f"] hf hw
  refine ⟨h.1 "/a/f" ?_, h.2⟩
  have h2 : subtreePathsList [Entry.file "/a/f"] = ["/a/f"] := by simp [subtreePathsList]
  rw [h2]
  decide

/-- Claim C5, confirmed: when set_owner fails on a path of a change
run, the worker only increments errors: changed is untouched, no audit
row is inserted, and the filesystem state, in particular the owner of
that path, is exactly what it was. -/
theorem c5_change_failure :
    ∀ (st : EngineState) (c : Counters) (item : ChangeItem) (user : String),
      st.fs.chownOk item.path user = false →
      changeStep user (st, c) item = (st, { c with errors := c.errors + 1 })
      ∧ (changeStep user (st, c) item).1.db.rows = st.db.rows
      ∧ get_owner (changeStep user (st, c) item).1.fs item.path = get_owner st.fs item.path := by
  intro st c item user h
  have hstep : changeStep user (st, c) item = (st, { c with errors := c.errors + 1 }) := by
    simp [changeStep, set_owner, h]
  exact ⟨hstep, by rw [hstep], by rw [hstep]⟩

/-- Witness for Claim C5 on a concrete failing chown. -/
theorem c5_change_failure_witness :
    stNoChown.fs.chownOk "p1" "alice" = false
    ∧ changeStep "alice" (stNoChown, ⟨0, 0, 0⟩) ⟨"p1", "bob"⟩ = (stNoChown, ⟨0, 0, 1⟩) := by
  refine ⟨rfl, ?_⟩
  exact (c5_change_failure stNoChown ⟨0, 0, 0⟩ ⟨"p1", "bob"⟩ "alice" rfl).1

/-- Claim C6, confirmed: in a revert run, a record whose set_owner back
to the original owner succeeds is deleted from the audit store by its
id and counted in changed, and the path then reads back the original
owner; a record whose set_owner fails is counted in errors and the
whole engine state, store included, is left untouched. -/
theorem c6_revert_cases :
    ∀ (st : EngineState) (c : Counters) (r : ChangeRecord),
      (st.fs.chownOk r.path r.original_owner = true →
        (revertStep (st, c) r).1.db.rows = st.db.rows.filter (fun x => x.id != r.id)
        ∧ get_owner (revertStep (st, c) r).1.fs r.path = r.original_owner
        ∧ (revertStep (st, c) r).2 = { c with changed := c.changed + 1 })
      ∧ (st.fs.chownOk r.path r.original_owner = false →
        (revertStep (st, c) r).1 = st
        ∧ (revertStep (st, c) r).2 = { c with errors := c.errors + 1 }) := by
  intro st c r
  constructor
  · intro h
    rw [revertStep_success st c r h]
    refine ⟨rfl, ?_, rfl⟩
    simp [get_owner]
  · intro h
    rw [revertStep_failure st c r h]
    exact ⟨rfl, rfl⟩

/-- Witness for Claim C6: a successful revert deletes the stored row
and restores the recorded original owner; a failing revert leaves the
state untouched. -/
theorem c6_revert_cases_witness :
    stWithRec.fs.chownOk rec1.path rec1.original_owner = true
    ∧ (revertStep (stWithRec, ⟨0, 0, 0⟩) rec1).1.db.rows = []
    ∧ get_owner (revertStep (stWithRec, ⟨0, 0, 0⟩) rec1).1.fs rec1.path = "bob"
    ∧ stNoChown.fs.chownOk rec1.path rec1.original_owner = false
    ∧ (revertStep (stNoChown, ⟨0, 0, 0⟩) rec1).1 = stNoChown := by
  have h1 := (c6_revert_cases stWithRec ⟨0, 0, 0⟩ rec1).1 rfl
  have h2 := (c6_revert_cases stNoChown ⟨0, 0, 0⟩ rec1).2 rfl
  refine ⟨rfl, ?_, h1.2.1, rfl, h2.1⟩
  rw [h1.1]
  decide

/-- Claim C7, counterexample: reverting an already-reverted record is
neither a no-op nor rejected: the worker runs set_owner again, moving
the owner of the path from alice back to bob and incrementing changed,
even though the record is no longer in the store. -/
theorem c7_counterexample :
    get_owner stStale.fs rec1.path = "alice"
    ∧ get_owner (revertStep (stStale, ⟨0, 0, 0⟩) rec1).1.fs rec1.path = "bob"
    ∧ (revertStep (stStale, ⟨0, 0, 0⟩) rec1).2.changed = 1 := by
  refine ⟨rfl, ?_, ?_⟩
  · simp [revertStep, set_owner, stStale, get_owner, rec1]
  · simp [revertStep, set_owner, stStale, rec1]

/-- Claim C7 as amended: the store delete itself is idempotent,
deleting an absent id is a no-op and not an error; but a second revert
of the same record is not guarded: when its chown succeeds it sets the
owner back to the recorded original owner again and increments
changed, with only the store delete being a no-op. -/
theorem c7_delete_idempotent :
    ∀ (db : Db) (i : Nat) (st : EngineState) (c : Counters) (r : ChangeRecord),
      delete_change (delete_change db i) i = delete_change db i
      ∧ ((¬ i ∈ db.rows.map ChangeRecord.id) → delete_change db i = db)
      ∧ (¬ r.id ∈ st.db.rows.map ChangeRecord.id →
          st.fs.chownOk r.path r.original_owner = true →
          (revertStep (st, c) r).1.db = st.db
          ∧ get_owner (revertStep (st, c) r).1.fs r.path = r.original_owner
          ∧ (revertStep (st, c) r).2.changed = c.changed + 1) := by
  intro db i st c r
  refine ⟨delete_change_idem db i, delete_change_absent db i, ?_⟩
  intro habs hchown
  rw [revertStep_success st c r hchown]
  refine ⟨delete_change_absent st.db r.id habs, ?_, rfl⟩
  simp [get_owner]

/-- Witness for the amended Claim C7 on a concrete stale record: the
store is unchanged by the duplicate delete, but the owner of the path
is moved back to bob and changed is incremented. -/
theorem c7_delete_idempotent_witness :
    delete_change (delete_change stStale.db 1) 1 = delete_change stStale.db 1
    ∧ delete_change stStale.db 1 = stStale.db
    ∧ (revertStep (stStale, ⟨0, 0, 0⟩) rec1).1.db = stStale.db
    ∧ get_owner (revertStep (stStale, ⟨0, 0, 0⟩) rec1).1.fs rec1.path = rec1.original_owner
    ∧ (revertStep (stStale, ⟨0, 0, 0⟩) rec1).2.changed = 1 := by
  have h := c7_delete_idempotent stStale.db 1 stStale ⟨0, 0, 0⟩ rec1
  have habs : ¬ (1 : Nat) ∈ stStale.db.rows.map ChangeRecord.id := by decide
  have habs2 : ¬ rec1.id ∈ stStale.db.rows.map ChangeRecord.id := by decide
  have h3 := h.2.2 habs2 rfl
  exact ⟨h.1, h.2.1 habs, h3.1, h3.2.1, h3.2.2⟩

/-- Claim C8, counterexample: five paths with parallelism at least four
give chunk size max(1, 5 div 4) = 1, and the slicing yields five
chunks, not the claimed min(4, parallelism) = 4 chunks. -/
theorem c8_counterexample :
    (chunkList (["a", "b", "c", "d", "e"] : List FPath)
        (chunkSizeOf (["a", "b", "c", "d", "e"] : List FPath).length (numThreads 8))).length ≠
      numThreads 8 := by
  have h : chunkList (["a", "b", "c", "d", "e"] : List FPath)
      (chunkSizeOf (["a", "b", "c", "d", "e"] : List FPath).length (numThreads 8)) =
      [["a"], ["b"], ["c"], ["d"], ["e"]] := by
    simp [chunkList, chunkSizeOf, numThreads]
  rw [h]
  decide

/-- Claim C8 as amended: the scheduler slices the input into
consecutive chunks of size max(1, N div min(4, parallelism)); the
concatenation of the chunks is exactly the input (so every path lands
in exactly one chunk), every chunk is nonempty and at most chunk-size
long, and the number of chunks is the ceiling of N over the chunk
size, which can exceed min(4, parallelism); a remainder forms its own
smaller final chunk rather than being absorbed. -/
theorem c8_partition :
    ∀ (l : List FPath) (T : Nat),
      (chunkList l (chunkSizeOf l.length (numThreads T))).flatten = l
      ∧ (∀ ch ∈ chunkList l (chunkSizeOf l.length (numThreads T)),
          ch ≠ [] ∧ ch.length ≤ chunkSizeOf l.length (numThreads T))
      ∧ (chunkList l (chunkSizeOf l.length (numThreads T))).length =
          (l.length + chunkSizeOf l.length (numThreads T) - 1) /
            chunkSizeOf l.length (numThreads T) := by
  intro l T
  exact ⟨chunkList_flatten l _,
    chunkList_chunk_bounds l _ (one_le_chunkSizeOf _ _),
    chunkList_length_eq l _ (one_le_chunkSizeOf _ _)⟩

/-- Witness for the amended Claim C8 on nine paths and four threads:
chunk size 2, five chunks, the last chunk the one-element remainder. -/
theorem c8_partition_witness :
    (chunkList ninePaths (chunkSizeOf ninePaths.length (numThreads 4))).flatten = ninePaths
    ∧ ((["i"] : List FPath) ≠ []
        ∧ (["i"] : List FPath).length ≤ chunkSizeOf ninePaths.length (numThreads 4))
    ∧ (chunkList ninePaths (chunkSizeOf ninePaths.length (numThreads 4))).length =
        (ninePaths.length + chunkSizeOf ninePaths.length (numThreads 4) - 1) /
          chunkSizeOf ninePaths.length (numThreads 4) := by
  have h := c8_partition ninePaths 4
  refine ⟨h.1, h.2.1 ["i"] ?_, h.2.2⟩
  have hch : chunkList ninePaths (chunkSizeOf ninePaths.length (numThreads 4)) =
      [["a", "b"], ["c", "d"], ["e", "f"], ["g", "h"], ["i"]] := by
    simp [ninePaths, chunkList, chunkSizeOf, numThreads]
  rw [hch]
  decide

/-- Claim C9, counterexample: with two paths split into two one-path
chunks, the first worker finishes its single item and emits 100, at a
point where only one of the two items of the run has been processed;
the specified combined percentage there would be 50, so the emitted
value is not the percentage of total items processed across all
workers. -/
theorem c9_counterexample :
    (1, 100) ∈ checkRunProgressEvents ["p1", "p2"] 4
    ∧ specCombinedPercent 1 (["p1", "p2"] : List FPath).length ≠ 100 := by
  constructor
  · unfold checkRunProgressEvents
    rw [twoPath_chunks]
    decide
  · decide

/-- Claim C9 as amended: each worker emits at exactly the loop indices
that are multiples of 500 plus its own final index, the value being
the percentage of its own chunk it has completed; within one worker
the sequence is monotonically non-decreasing and ends at 100, but the
value is chunk-relative, not the combined percentage across workers. -/
theorem c9_progress :
    ∀ (total : Nat),
      (∀ i, i ∈ progressIdxs total ↔ (1 ≤ i ∧ i ≤ total ∧ (i % 500 = 0 ∨ i = total)))
      ∧ (∀ i, i ∈ progressIdxs total → progressValue i total = i * 100 / total)
      ∧ (workerProgress total).Pairwise (· ≤ ·)
      ∧ (1 ≤ total → (workerProgress total).getLastD 0 = 100) := by
  intro total
  exact ⟨fun i => mem_progressIdxs, fun i _ => rfl,
    workerProgress_pairwise total, workerProgress_last total⟩

set_option maxRecDepth 10000 in
/-- Witness for the amended Claim C9 at the 1000-item scenario: the
emissions are at items 500 and 1000 with values 50 and 100. -/
theorem c9_progress_witness :
    (500 ∈ progressIdxs 1000 ↔ (1 ≤ 500 ∧ 500 ≤ 1000 ∧ (500 % 500 = 0 ∨ 500 = 1000)))
    ∧ (workerProgress 1000).getLastD 0 = 100
    ∧ workerProgress 1000 = [50, 100] := by
  refine ⟨(c9_progress 1000).1 500, (c9_progress 1000).2.2.2 (by decide), by decide⟩

/-- Claim C10, confirmed: get_owner is total, returning the string
Unknown whenever the underlying query fails, so the check worker never
reaches its error branch: every check tally is exactly zero changed,
all items under unchanged, zero errors, and the final counters of any
check run show zero errors and zero changed. -/
theorem c10_check_total :
    ∀ (fs : Fs) (user : String) (paths : List FPath) (T : Nat) (p : FPath),
      (fs.query p = none → get_owner fs p = "Unknown")
      ∧ checkWorkerCounters fs user paths = ⟨0, paths.length, 0⟩
      ∧ (checkRunFinalCounters fs user paths T).errors = 0
      ∧ (checkRunFinalCounters fs user paths T).changed = 0 := by
  intro fs user paths T p
  refine ⟨?_, checkWorkerCounters_eq fs user paths, ?_, ?_⟩
  · intro h
    simp [get_owner, h]
  · rw [checkRunFinalCounters_eq, checkWorkerCounters_eq]
  · rw [checkRunFinalCounters_eq, checkWorkerCounters_eq]

/-- Witness for Claim C10 on a filesystem whose every owner query
fails: the owner reads Unknown and both paths are tallied under
unchanged with zero errors. -/
theorem c10_check_total_witness :
    fsNone.query "p1" = none
    ∧ get_owner fsNone "p1" = "Unknown"
    ∧ checkWorkerCounters fsNone "alice" ["p1", "p2"] = ⟨0, 2, 0⟩
    ∧ (checkRunFinalCounters fsNone "alice" ["p1", "p2"] 4).errors = 0 := by
  have h := c10_check_total fsNone "alice" ["p1", "p2"] 4 "p1"
  exact ⟨rfl, h.1 rfl, h.2.1, h.2.2.1⟩

end PermissionChanger
